import Mathlib

/-!
Shallow embedding of the trade-settlement, valuation and market-data core of
the PortfolioPlus application (src/app.py).

Monetary and share quantities are `decimal.Decimal` in the source; they are
modelled as `ℚ`.  The per-user slice of the relational store (users.wallet_balance,
portfolios rows, transactions rows) is modelled as an explicit `AccountState`
record; SQL row operations become association-list operations on it.
-/

/-- One row of the `transactions` table for a given user (src/app.py lines
135-146, inserts at 655-659 and 698-702).  The `price` column stores the
total amount passed to `process_transaction`. -/
structure Txn where
  symbol : String
  side : String
  quantity : ℚ
  price : ℚ
  deriving Repr, DecidableEq

/-- The per-user database state touched by `process_transaction`:
`users.wallet_balance`, the `portfolios` rows `(stock_symbol, quantity)` for
this user, and the `transactions` rows for this user (append-only). -/
structure AccountState where
  wallet_balance : ℚ
  portfolios : List (String × ℚ)
  transactions : List Txn
  deriving Repr, DecidableEq

/-- `SELECT quantity FROM portfolios WHERE user_id = .. AND stock_symbol = ..`
(src/app.py lines 660, 682): first matching row, if any. -/
def lookupHolding (ps : List (String × ℚ)) (sym : String) : Option ℚ :=
  (ps.find? (fun p => p.1 == sym)).map Prod.snd

/-- `UPDATE portfolios SET quantity = q WHERE user_id = .. AND stock_symbol = ..`
(src/app.py lines 665-666, 690-691): every matching row gets quantity `q`. -/
def setHolding (ps : List (String × ℚ)) (sym : String) (q : ℚ) : List (String × ℚ) :=
  ps.map (fun p => if p.1 == sym then (p.1, q) else p)

/-- `DELETE FROM portfolios WHERE user_id = .. AND stock_symbol = ..`
(src/app.py line 693). -/
def deleteHolding (ps : List (String × ℚ)) (sym : String) : List (String × ℚ) :=
  ps.filter (fun p => !(p.1 == sym))

/-- Outcome of `process_transaction`: the JSON response it returns.
`insufficientBalance` is `{'error': 'Insufficient balance'}` (line 647),
`insufficientStock` is `{'error': 'Insufficient stock quantity'}` (line 686),
`success` is `{'success': True}` (line 711). -/
inductive TxResult where
  | success
  | insufficientBalance
  | insufficientStock
  deriving Repr, DecidableEq

/-- `process_transaction` (src/app.py lines 624-711), for a logged-in user
whose row exists, modelled on the committed database state.  The buy branch
rejects when `wallet_balance < amount` before any mutation; otherwise it
debits the balance, appends a buy transaction and upserts the holding.  The
sell branch rejects (after only a SELECT) when no holding row exists or its
quantity is below the requested quantity; otherwise it decrements the holding
(deleting the row when the new quantity is not positive), credits the balance
and appends a sell transaction.  Any other transaction_type falls through to
the final `return jsonify({'success': True})` with no mutation. -/
def process_transaction (st : AccountState) (symbol : String)
    (transaction_type : String) (quantity amount : ℚ) : TxResult × AccountState :=
  if transaction_type == "buy" then
    if st.wallet_balance < amount then
      (.insufficientBalance, st)
    else
      let new_balance := st.wallet_balance - amount
      let ps :=
        match lookupHolding st.portfolios symbol with
        | some old => setHolding st.portfolios symbol (old + quantity)
        | none => st.portfolios ++ [(symbol, quantity)]
      (.success,
        { wallet_balance := new_balance
          portfolios := ps
          transactions := st.transactions ++ [⟨symbol, "buy", quantity, amount⟩] })
  else if transaction_type == "sell" then
    match lookupHolding st.portfolios symbol with
    | none => (.insufficientStock, st)
    | some old =>
      if old < quantity then
        (.insufficientStock, st)
      else
        let new_quantity := old - quantity
        let ps :=
          if new_quantity > 0 then setHolding st.portfolios symbol new_quantity
          else deleteHolding st.portfolios symbol
        (.success,
          { wallet_balance := st.wallet_balance + amount
            portfolios := ps
            transactions := st.transactions ++ [⟨symbol, "sell", quantity, amount⟩] })
  else
    (.success, st)

/-- One settle request: the JSON body of a POST to /process_transaction
(src/app.py lines 626-630). -/
structure TradeRequest where
  symbol : String
  transaction_type : String
  quantity : ℚ
  amount : ℚ
  deriving Repr, DecidableEq

/-- Final state after a finite sequence of `process_transaction` calls. -/
def runTransactions (st : AccountState) (reqs : List TradeRequest) : AccountState :=
  reqs.foldl
    (fun s r => (process_transaction s r.symbol r.transaction_type r.quantity r.amount).2) st

/-- The `portfolios` rows of a real account form a map keyed by symbol with
strictly positive quantities (spec data model; maintained by the settlement
code, see the preservation theorems below). -/
def HoldingsWF (ps : List (String × ℚ)) : Prop :=
  (ps.map Prod.fst).Nodup ∧ ∀ p ∈ ps, 0 < p.2

/-- The rows selected by
`SELECT .. FROM transactions WHERE user_id = .. AND stock_symbol = .. AND
transaction_type = 'buy'` (src/app.py lines 779-783). -/
def buyRows (txs : List Txn) (sym : String) : List Txn :=
  txs.filter (fun t => t.symbol == sym && t.side == "buy")

/-- Average cost per share as computed by `get_dashboard_holdings`
(src/app.py lines 779-788): `COALESCE(SUM(price), 0)` and
`COALESCE(SUM(quantity), 0)` over the buy rows, then
`total_spent / total_bought` when `total_bought > 0`, else `0`. -/
def avg_cost_per_share (txs : List Txn) (sym : String) : ℚ :=
  let total_spent := ((buyRows txs sym).map Txn.price).sum
  let total_bought := ((buyRows txs sym).map Txn.quantity).sum
  if total_bought > 0 then total_spent / total_bought else 0

/-! The quote cache (src/app.py lines 19-37).  The module-level `_cache` dict
is modelled as an association list from key strings to (timestamp, data)
pairs; `time.time()` values are modelled as `ℚ`. -/

/-- `CACHE_TTL = 300` seconds (src/app.py line 21). -/
def CACHE_TTL : ℚ := 300

/-- `cache_key in _cache` / `_cache[cache_key]`: the entry stored under a
key, if any. -/
def cacheFind {V : Type} (c : List (String × ℚ × V)) (k : String) : Option (ℚ × V) :=
  (c.find? (fun e => e.1 == k)).map (fun e => e.2)

/-- `_cache[cache_key] = (now, data)`: Python dict assignment, replacing any
previous entry for the key. -/
def cacheInsert {V : Type} (c : List (String × ℚ × V)) (k : String) (ts : ℚ) (v : V) :
    List (String × ℚ × V) :=
  (k, ts, v) :: c.filter (fun e => !(e.1 == k))

/-- `finnhub_get` (src/app.py lines 26-37) for a fixed cache-key string.
`fetched_data` is the value `resp.json()` would produce if the network were
consulted now.  Returns the data handed back to the caller, the cache after
the call, and whether the network fetch (lines 32-35) ran. -/
def finnhub_get {V : Type} (c : List (String × ℚ × V)) (cache_key : String) (now : ℚ)
    (fetched_data : V) : V × List (String × ℚ × V) × Bool :=
  match cacheFind c cache_key with
  | some e =>
    if now - e.1 < CACHE_TTL then (e.2, c, false)
    else (fetched_data, cacheInsert c cache_key now fetched_data, true)
  | none => (fetched_data, cacheInsert c cache_key now fetched_data, true)

/-! The market data gateway and the parallel fetch coordinator
(src/app.py lines 164-233). -/

/-- A Finnhub `/quote` response as used by `_fetch_one_stock`: the fields read
via `quote.get('c', 0)` and `quote.get('pc', 0)`.  `none` stands for an
absent or null field. -/
structure FinnhubQuote where
  c : Option ℚ
  pc : Option ℚ
  deriving Repr, DecidableEq

/-- A Finnhub `/stock/profile2` response as used by `_fetch_one_stock`. -/
structure FinnhubProfile where
  name : Option String
  finnhubIndustry : Option String
  marketCapitalization : Option ℚ
  shareOutstanding : Option ℚ
  deriving Repr, DecidableEq

/-- The per-symbol record built by `_fetch_one_stock`
(src/app.py lines 203-213). -/
structure StockRecord where
  symbol : String
  company_name : String
  prev_price : ℚ
  current_price : ℚ
  gain_loss : ℚ
  percent_change : ℚ
  sector : String
  market_cap : String
  in_watchlist : Bool
  deriving Repr, DecidableEq

/-- Python's `round(x, 2)`.  (Python rounds half-to-even on floats; `round`
on `ℚ` rounds half up.  The two agree away from exact half-cent ties, and no
property below depends on tie behaviour.) -/
def round2 (x : ℚ) : ℚ :=
  (round (x * 100) : ℤ) / 100

/-- `_market_cap_bucket` (src/app.py lines 164-174); `none` is Python `None`. -/
def market_cap_bucket (market_cap_usd : Option ℚ) : String :=
  match market_cap_usd with
  | none => "N/A"
  | some m =>
    if m ≤ 0 then "N/A"
    else if m ≥ 10000000000 then "Large cap"
    else if m ≥ 2000000000 then "Mid cap"
    else if m ≥ 300000000 then "Small cap"
    else "Micro cap"

/-- `_fetch_one_stock` (src/app.py lines 177-216).  The two `finnhub_get`
network calls are abstracted into the `quote?` and `profile?` arguments;
`none` there models a call that raised (caught by the `except` at line 214,
which returns `None`).  A response whose current price is falsy, or whose
previous close is falsy or zero, also yields `None` (lines 186-187).
Python's `None` watchlist argument is modelled as the empty list. -/
def fetch_one_stock (quote? : Option FinnhubQuote) (profile? : Option FinnhubProfile)
    (symbol : String) (watchlist_symbols : List String) : Option StockRecord :=
  match quote?, profile? with
  | some quote, some profile =>
    let current_price := quote.c.getD 0
    let prev_price := quote.pc.getD 0
    if current_price = 0 ∨ prev_price = 0 then none
    else
      let gain_loss := round2 (current_price - prev_price)
      let percent_change := round2 (gain_loss / prev_price * 100)
      let company_name := profile.name.getD symbol
      let sector :=
        match profile.finnhubIndustry with
        | some s => if s = "" then "N/A" else s
        | none => "N/A"
      let mcap0 : Option ℚ :=
        match profile.marketCapitalization with
        | some m => some m
        | none =>
          if current_price ≠ 0 then
            match profile.shareOutstanding with
            | some shares => some (current_price * shares)
            | none => none
          else none
      let mcap1 : Option ℚ :=
        match mcap0 with
        | some m => if m ≠ 0 ∧ 0 < m ∧ m < 10000000 then some (m * 1000000) else some m
        | none => none
      let market_cap :=
        match mcap1 with
        | some m => if m ≠ 0 then market_cap_bucket (some m) else "N/A"
        | none => "N/A"
      let in_watchlist :=
        if watchlist_symbols.isEmpty then false else watchlist_symbols.contains symbol
      some
        { symbol := symbol
          company_name := company_name
          prev_price := round2 prev_price
          current_price := round2 current_price
          gain_loss := gain_loss
          percent_change := percent_change
          sector := sector
          market_cap := market_cap
          in_watchlist := in_watchlist }
  | _, _ => none

/-- `fetch_stock_data` (src/app.py lines 219-233).  The thread-pool fan-out is
modelled sequentially: each symbol's task outcome is given by the provider
oracles `quoteOf`/`profileOf`, and results that are not `None` are collected.
The source gathers them in `as_completed` order, which is nondeterministic;
the properties proved below depend only on which records appear, so
submission order is used. -/
def fetch_stock_data (quoteOf : String → Option FinnhubQuote)
    (profileOf : String → Option FinnhubProfile)
    (stock_symbols : List String) (watchlist_symbols : List String) : List StockRecord :=
  stock_symbols.filterMap
    (fun sym => fetch_one_stock (quoteOf sym) (profileOf sym) sym watchlist_symbols)

/-! Historical chart processing (src/app.py lines 39-68). -/

/-- The `indicators.quote[0]` object of a Yahoo chart response: raw close and
volume series, `none` for a null entry. -/
structure ChartQuote where
  close : List (Option ℚ)
  volume : List (Option ℚ)
  deriving Repr, DecidableEq

/-- The `chart.result[0]` object of a Yahoo chart response: epoch timestamps
plus the quote series. -/
structure ChartResult where
  timestamp : List ℤ
  quote : ChartQuote
  deriving Repr, DecidableEq

/-- The `chart_data` dict built by `yahoo_chart` (src/app.py line 63). -/
structure ChartData where
  dates : List String
  prices : List ℚ
  volumes : List ℚ
  deriving Repr, DecidableEq

/-- The series processing of `yahoo_chart` (src/app.py lines 58-63):
`closes` keeps the non-null closes, `volumes` maps null to 0, `dates` formats
the first `len(closes)` timestamps, and `volumes` is truncated to
`len(closes)`.  `fmt` models `datetime.fromtimestamp(t).strftime('%Y-%m-%d')`
(wall-clock formatting, irrelevant to the properties below).  The surrounding
cache wrapper (lines 41-44, 64) follows the same pattern as `finnhub_get` and
the request/error handling (lines 45-57, 66-68) is outside this slice. -/
def yahoo_chart (fmt : ℤ → String) (chart : ChartResult) : ChartData :=
  let closes := chart.quote.close.filterMap id
  let volumes := chart.quote.volume.map (fun v => v.getD 0)
  let dates := (chart.timestamp.take closes.length).map fmt
  { dates := dates, prices := closes, volumes := volumes.take closes.length }

/-- The date-price index alignment asserted by the spec: the i-th returned
price is the close of the raw row i — the row whose timestamp produced the
i-th returned date. -/
def datePriceAligned (fmt : ℤ → String) (chart : ChartResult) : Prop :=
  ∀ i : ℕ, i < (yahoo_chart fmt chart).prices.length →
    chart.quote.close[i]? = ((yahoo_chart fmt chart).prices[i]?).map some

/-! Helper lemmas about the association-list view of the portfolios table. -/

theorem lookupHolding_eq_none_iff (ps : List (String × ℚ)) (sym : String) :
    lookupHolding ps sym = none ↔ ∀ p ∈ ps, (p.1 == sym) = false := by
  simp [lookupHolding, List.find?_eq_none]

theorem lookupHolding_mem (ps : List (String × ℚ)) (sym : String) (old : ℚ)
    (h : lookupHolding ps sym = some old) : (sym, old) ∈ ps := by
  simp only [lookupHolding, Option.map_eq_some'] at h
  obtain ⟨p, hfind, hsnd⟩ := h
  have hmem := List.mem_of_find?_eq_some hfind
  have hkey := List.find?_some hfind
  simp only [beq_iff_eq] at hkey
  rw [← hkey, ← hsnd]
  simpa using hmem

theorem deleteHolding_of_lookup_none (ps : List (String × ℚ)) (sym : String)
    (h : lookupHolding ps sym = none) : deleteHolding ps sym = ps := by
  rw [lookupHolding_eq_none_iff] at h
  apply List.filter_eq_self.mpr
  intro p hp
  simp [h p hp]

theorem setHolding_of_lookup_none (ps : List (String × ℚ)) (sym : String) (q : ℚ)
    (h : lookupHolding ps sym = none) : setHolding ps sym q = ps := by
  rw [lookupHolding_eq_none_iff] at h
  have hmap : ps.map (fun p => if p.1 == sym then (p.1, q) else p) = ps.map id := by
    apply List.map_congr_left
    intro p hp
    simp [h p hp]
  simpa [setHolding] using hmap

example :
    (process_transaction ⟨100, [], []⟩ "AAPL" "buy" 2 50).2.wallet_balance = 50 := by
  norm_num [process_transaction, lookupHolding]

example :
    (process_transaction ⟨100, [], []⟩ "AAPL" "buy" 2 150).1 = .insufficientBalance := by
  norm_num [process_transaction]

example :
    (process_transaction ⟨100, [("AAPL", 5)], []⟩ "AAPL" "sell" 5 80).2.portfolios = [] := by
  norm_num +decide [process_transaction, lookupHolding, deleteHolding, List.find?, List.filter]

example :
    (process_transaction ⟨100, [("AAPL", 5)], []⟩ "AAPL" "sell" 2 30).2
      = ⟨130, [("AAPL", 3)], [⟨"AAPL", "sell", 2, 30⟩]⟩ := by
  norm_num +decide [process_transaction, lookupHolding, setHolding, List.find?]

/-- Step lemma for claim C1: one `process_transaction` call keeps a
non-negative wallet balance non-negative when the amount is positive. -/
theorem process_transaction_balance_nonneg (st : AccountState) (sym tt : String) (q a : ℚ)
    (h0 : 0 ≤ st.wallet_balance) (ha : 0 < a) :
    0 ≤ (process_transaction st sym tt q a).2.wallet_balance := by
  by_cases hb : tt = "buy"
  · subst hb
    by_cases hlt : st.wallet_balance < a
    · simpa [process_transaction, hlt] using h0
    · have hle : a ≤ st.wallet_balance := not_lt.mp hlt
      have hbal : (process_transaction st sym "buy" q a).2.wallet_balance
          = st.wallet_balance - a := by
        simp [process_transaction, hlt]
      rw [hbal]
      linarith
  · by_cases hs : tt = "sell"
    · subst hs
      rcases hl : lookupHolding st.portfolios sym with _ | old
      · simpa [process_transaction, hl] using h0
      · by_cases hlt : old < q
        · simpa [process_transaction, hl, hlt] using h0
        · have hbal : (process_transaction st sym "sell" q a).2.wallet_balance
              = st.wallet_balance + a := by
            simp [process_transaction, hl, hlt]
          rw [hbal]
          linarith
    · simpa [process_transaction, hb, hs] using h0

/-- C1: starting from a non-negative wallet balance, any finite sequence of
settle calls with positive quantity and positive amount leaves the balance
non-negative: a buy is rejected before mutation whenever balance < amount,
and a sell only adds its amount to the balance. -/
theorem balance_nonneg_after_settlements (st : AccountState) (reqs : List TradeRequest)
    (h0 : 0 ≤ st.wallet_balance)
    (hreqs : ∀ r ∈ reqs, 0 < r.quantity ∧ 0 < r.amount) :
    0 ≤ (runTransactions st reqs).wallet_balance := by
  induction reqs generalizing st with
  | nil => simpa [runTransactions] using h0
  | cons r rs ih =>
    have hr := hreqs r (List.mem_cons_self r rs)
    have hstep := process_transaction_balance_nonneg st r.symbol r.transaction_type
      r.quantity r.amount h0 hr.2
    have hrun : runTransactions st (r :: rs)
        = runTransactions
            (process_transaction st r.symbol r.transaction_type r.quantity r.amount).2 rs := rfl
    rw [hrun]
    exact ih _ hstep (fun x hx => hreqs x (List.mem_cons_of_mem r hx))

/-- Witness for C1 at a concrete account and request sequence. -/
theorem balance_nonneg_after_settlements_witness :
    0 ≤ (runTransactions ⟨1000, [], []⟩
          [⟨"AAPL", "buy", 2, 300⟩, ⟨"AAPL", "sell", 1, 200⟩]).wallet_balance :=
  balance_nonneg_after_settlements ⟨1000, [], []⟩
    [⟨"AAPL", "buy", 2, 300⟩, ⟨"AAPL", "sell", 1, 200⟩]
    (by norm_num)
    (by intro r hr; fin_cases hr <;> constructor <;> norm_num)

/-- C2: a buy whose amount exceeds the wallet balance is rejected with the
insufficient-balance error and the account state is returned exactly as it
was: balance, every holding row, and the transaction rows are unchanged. -/
theorem buy_insufficient_funds_no_mutation (st : AccountState) (sym : String) (q a : ℚ)
    (hq : 0 < q) (ha : 0 < a) (h : st.wallet_balance < a) :
    process_transaction st sym "buy" q a = (.insufficientBalance, st) := by
  simp [process_transaction, h]

/-- Witness for C2 at a concrete account. -/
theorem buy_insufficient_funds_no_mutation_witness :
    process_transaction ⟨100, [("AAPL", 5)], []⟩ "AAPL" "buy" 3 250
      = (.insufficientBalance, ⟨100, [("AAPL", 5)], []⟩) :=
  buy_insufficient_funds_no_mutation ⟨100, [("AAPL", 5)], []⟩ "AAPL" 3 250
    (by norm_num) (by norm_num) (by norm_num)

/-- C3: a sell with no holding row for the symbol, or with a holding smaller
than the requested quantity, is rejected with the insufficient-stock error
and the account state is returned exactly as it was. -/
theorem sell_insufficient_shares_no_mutation (st : AccountState) (sym : String) (q a : ℚ)
    (hq : 0 < q) (ha : 0 < a)
    (h : lookupHolding st.portfolios sym = none ∨
         ∃ old, lookupHolding st.portfolios sym = some old ∧ old < q) :
    process_transaction st sym "sell" q a = (.insufficientStock, st) := by
  rcases h with h | ⟨old, h, hlt⟩
  · simp [process_transaction, h]
  · simp [process_transaction, h, hlt]

/-- Witness for C3 at a concrete account with no holding for the symbol. -/
theorem sell_insufficient_shares_no_mutation_witness :
    process_transaction ⟨100, [("MSFT", 4)], []⟩ "AAPL" "sell" 1 50
      = (.insufficientStock, ⟨100, [("MSFT", 4)], []⟩) :=
  sell_insufficient_shares_no_mutation ⟨100, [("MSFT", 4)], []⟩ "AAPL" 1 50
    (by norm_num) (by norm_num) (Or.inl (by decide))

/-- C10: a settle request whose side is neither buy nor sell falls through
both branches: it reports success and performs no mutation at all. -/
theorem unknown_side_success_no_mutation (st : AccountState) (sym tt : String) (q a : ℚ)
    (h1 : tt ≠ "buy") (h2 : tt ≠ "sell") :
    process_transaction st sym tt q a = (.success, st) := by
  simp [process_transaction, h1, h2]

/-- Witness for C10 at a concrete account and an unrecognised side. -/
theorem unknown_side_success_no_mutation_witness :
    process_transaction ⟨100, [("AAPL", 5)], []⟩ "AAPL" "short" 3 50
      = (.success, ⟨100, [("AAPL", 5)], []⟩) :=
  unknown_side_success_no_mutation ⟨100, [("AAPL", 5)], []⟩ "AAPL" "short" 3 50
    (by decide) (by decide)

/-! Preservation of the holdings invariants. -/

theorem lookupHolding_pos (ps : List (String × ℚ)) (sym : String) (old : ℚ)
    (hp : ∀ p ∈ ps, 0 < p.2) (h : lookupHolding ps sym = some old) : 0 < old :=
  hp (sym, old) (lookupHolding_mem ps sym old h)

theorem setHolding_pos (ps : List (String × ℚ)) (sym : String) (q : ℚ)
    (hp : ∀ p ∈ ps, 0 < p.2) (hq : 0 < q) :
    ∀ p ∈ setHolding ps sym q, 0 < p.2 := by
  intro p hmem
  simp only [setHolding, List.mem_map] at hmem
  obtain ⟨e, he, heq⟩ := hmem
  by_cases h : (e.1 == sym) = true
  · rw [if_pos h] at heq
    rw [← heq]
    exact hq
  · rw [if_neg h] at heq
    rw [← heq]
    exact hp e he

theorem deleteHolding_pos (ps : List (String × ℚ)) (sym : String)
    (hp : ∀ p ∈ ps, 0 < p.2) :
    ∀ p ∈ deleteHolding ps sym, 0 < p.2 := by
  intro p hmem
  exact hp p (List.mem_of_mem_filter hmem)

/-- Step lemma for claim C6: one `process_transaction` call with a positive
requested quantity keeps every holding quantity strictly positive. -/
theorem process_transaction_holdings_pos (st : AccountState) (sym tt : String) (q a : ℚ)
    (hq : 0 < q) (hp : ∀ p ∈ st.portfolios, 0 < p.2) :
    ∀ p ∈ (process_transaction st sym tt q a).2.portfolios, 0 < p.2 := by
  by_cases hb : tt = "buy"
  · subst hb
    by_cases hlt : st.wallet_balance < a
    · simpa [process_transaction, hlt] using hp
    · rcases hl : lookupHolding st.portfolios sym with _ | old
      · have hports : (process_transaction st sym "buy" q a).2.portfolios
            = st.portfolios ++ [(sym, q)] := by
          simp [process_transaction, hlt, hl]
        rw [hports]
        intro p hmem
        rcases List.mem_append.mp hmem with h | h
        · exact hp p h
        · have : p = (sym, q) := by simpa using h
          rw [this]
          exact hq
      · have hold : 0 < old := lookupHolding_pos _ _ _ hp hl
        have hports : (process_transaction st sym "buy" q a).2.portfolios
            = setHolding st.portfolios sym (old + q) := by
          simp [process_transaction, hlt, hl]
        rw [hports]
        exact setHolding_pos _ _ _ hp (by linarith)
  · by_cases hs : tt = "sell"
    · subst hs
      rcases hl : lookupHolding st.portfolios sym with _ | old
      · simpa [process_transaction, hl] using hp
      · by_cases hlt : old < q
        · simpa [process_transaction, hl, hlt] using hp
        · by_cases hpos : old - q > 0
          · have hports : (process_transaction st sym "sell" q a).2.portfolios
                = setHolding st.portfolios sym (old - q) := by
              simp [process_transaction, hl, hlt, hpos]
            rw [hports]
            exact setHolding_pos _ _ _ hp hpos
          · have hports : (process_transaction st sym "sell" q a).2.portfolios
                = deleteHolding st.portfolios sym := by
              simp [process_transaction, hl, hlt, hpos]
            rw [hports]
            exact deleteHolding_pos _ _ hp
    · simpa [process_transaction, hb, hs] using hp

theorem runTransactions_holdings_pos (st : AccountState) (reqs : List TradeRequest)
    (hp : ∀ p ∈ st.portfolios, 0 < p.2)
    (hreqs : ∀ r ∈ reqs, 0 < r.quantity) :
    ∀ p ∈ (runTransactions st reqs).portfolios, 0 < p.2 := by
  induction reqs generalizing st with
  | nil => simpa [runTransactions] using hp
  | cons r rs ih =>
    have hstep := process_transaction_holdings_pos st r.symbol r.transaction_type
      r.quantity r.amount (hreqs r (List.mem_cons_self r rs)) hp
    have hrun : runTransactions st (r :: rs)
        = runTransactions
            (process_transaction st r.symbol r.transaction_type r.quantity r.amount).2 rs := rfl
    rw [hrun]
    exact ih _ hstep (fun x hx => hreqs x (List.mem_cons_of_mem r hx))

/-- C6: starting from a fresh account with no holdings, after any sequence of
settle calls with positive quantities, every holding row that exists has a
strictly positive quantity — a sell that brings a holding to zero or below
deletes the row rather than leaving it non-positive. -/
theorem holdings_positive_reachable (b : ℚ) (reqs : List TradeRequest)
    (hreqs : ∀ r ∈ reqs, 0 < r.quantity) :
    ∀ p ∈ (runTransactions ⟨b, [], []⟩ reqs).portfolios, 0 < p.2 :=
  runTransactions_holdings_pos ⟨b, [], []⟩ reqs (by simp) hreqs

/-- Witness for C6 at a concrete request sequence (a buy of 3 shares followed
by a partial sell of 1) whose surviving holding row is ("AAPL", 2). -/
theorem holdings_positive_reachable_witness :
    (runTransactions ⟨1000, [], []⟩
        [⟨"AAPL", "buy", 3, 30⟩, ⟨"AAPL", "sell", 1, 10⟩]).portfolios = [("AAPL", 2)]
    ∧ 0 < (("AAPL", (2 : ℚ)) : String × ℚ).2 := by
  have hports : (runTransactions ⟨1000, [], []⟩
      [⟨"AAPL", "buy", 3, 30⟩, ⟨"AAPL", "sell", 1, 10⟩]).portfolios = [("AAPL", 2)] := by
    norm_num +decide [runTransactions, process_transaction, lookupHolding, setHolding,
      List.find?, List.foldl]
  refine ⟨hports, ?_⟩
  exact holdings_positive_reachable 1000 [⟨"AAPL", "buy", 3, 30⟩, ⟨"AAPL", "sell", 1, 10⟩]
    (by intro r hr; fin_cases hr <;> norm_num) ("AAPL", 2) (by rw [hports]; simp)

/-! Lemmas for the buy-sell round trip. -/

theorem lookupHolding_append_of_none (ps : List (String × ℚ)) (sym : String) (q : ℚ)
    (h : lookupHolding ps sym = none) :
    lookupHolding (ps ++ [(sym, q)]) sym = some q := by
  have hfind : ps.find? (fun p => p.1 == sym) = none := by
    simpa [lookupHolding] using h
  simp [lookupHolding, List.find?_append, hfind]

theorem lookupHolding_setHolding_self (ps : List (String × ℚ)) (sym : String) (v : ℚ) :
    lookupHolding (setHolding ps sym v) sym
      = (lookupHolding ps sym).map (fun _ => v) := by
  induction ps with
  | nil => rfl
  | cons p ps ih =>
    by_cases h : p.1 = sym
    · have hb : (p.1 == sym) = true := by simpa using h
      have h1 : List.find? (fun e => e.1 == sym) (((p.1, v) : String × ℚ) :: setHolding ps sym v)
          = some (p.1, v) := List.find?_cons_of_pos _ hb
      have h2 : List.find? (fun e => e.1 == sym) (p :: ps) = some p :=
        List.find?_cons_of_pos _ hb
      show (List.find? (fun e => e.1 == sym) (setHolding (p :: ps) sym v)).map Prod.snd
          = ((List.find? (fun e => e.1 == sym) (p :: ps)).map Prod.snd).map (fun _ => v)
      rw [show setHolding (p :: ps) sym v = (p.1, v) :: setHolding ps sym v by
            unfold setHolding
            rw [List.map_cons, if_pos hb],
          h1, h2]
      rfl
    · have hnb : ¬ ((p.1 == sym) = true) := by simpa using h
      have h1 : List.find? (fun e => e.1 == sym) (p :: setHolding ps sym v)
          = List.find? (fun e => e.1 == sym) (setHolding ps sym v) :=
        List.find?_cons_of_neg _ hnb
      have h2 : List.find? (fun e => e.1 == sym) (p :: ps)
          = List.find? (fun e => e.1 == sym) ps :=
        List.find?_cons_of_neg _ hnb
      show (List.find? (fun e => e.1 == sym) (setHolding (p :: ps) sym v)).map Prod.snd
          = ((List.find? (fun e => e.1 == sym) (p :: ps)).map Prod.snd).map (fun _ => v)
      rw [show setHolding (p :: ps) sym v = p :: setHolding ps sym v by
            unfold setHolding
            rw [List.map_cons, if_neg hnb],
          h1, h2]
      exact ih

theorem setHolding_setHolding (ps : List (String × ℚ)) (sym : String) (v w : ℚ) :
    setHolding (setHolding ps sym v) sym w = setHolding ps sym w := by
  simp only [setHolding, List.map_map]
  apply List.map_congr_left
  intro p _
  by_cases h : p.1 = sym
  · simp [Function.comp, h]
  · simp [Function.comp, h]

theorem setHolding_lookup_eq_self (ps : List (String × ℚ)) (sym : String) (old : ℚ)
    (hnd : (ps.map Prod.fst).Nodup) (h : lookupHolding ps sym = some old) :
    setHolding ps sym old = ps := by
  induction ps with
  | nil => simp [lookupHolding] at h
  | cons p ps ih =>
    rw [List.map_cons, List.nodup_cons] at hnd
    by_cases hk : p.1 = sym
    · have hb : (p.1 == sym) = true := by simpa using hk
      have h2 : List.find? (fun e => e.1 == sym) (p :: ps) = some p :=
        List.find?_cons_of_pos _ hb
      have hval : p.2 = old := by
        have hh := h
        unfold lookupHolding at hh
        rw [h2] at hh
        simpa using hh
      have hnone : lookupHolding ps sym = none := by
        rw [lookupHolding_eq_none_iff]
        intro e he
        have hne : ¬ e.1 = sym := by
          intro hes
          apply hnd.1
          rw [hk, ← hes]
          exact List.mem_map_of_mem Prod.fst he
        simpa using hne
      have hrest : setHolding ps sym old = ps := setHolding_of_lookup_none ps sym old hnone
      unfold setHolding at hrest ⊢
      rw [List.map_cons, if_pos hb, hrest, ← hval]
    · have h2 : List.find? (fun e => e.1 == sym) (p :: ps)
          = List.find? (fun e => e.1 == sym) ps :=
        List.find?_cons_of_neg _ (by simpa using hk)
      have htail : lookupHolding ps sym = some old := by
        have hh := h
        unfold lookupHolding at hh ⊢
        rwa [h2] at hh
      have hrest := ih hnd.2 htail
      unfold setHolding at hrest ⊢
      rw [List.map_cons, if_neg (by simpa using hk), hrest]

/-- C4: on a well-formed account (holding rows keyed uniquely, positive
quantities), a successful buy of (q, a) immediately followed by a sell of the
same (q, a) restores the wallet balance and the holdings rows exactly; only
the transaction ledger grows. -/
theorem buy_sell_round_trip (st : AccountState) (sym : String) (q a : ℚ)
    (hwf : HoldingsWF st.portfolios) (hq : 0 < q) (ha : 0 < a)
    (hbal : a ≤ st.wallet_balance) :
    (process_transaction st sym "buy" q a).1 = .success ∧
    (process_transaction (process_transaction st sym "buy" q a).2 sym "sell" q a).1
      = .success ∧
    (process_transaction (process_transaction st sym "buy" q a).2 sym "sell" q a).2.wallet_balance
      = st.wallet_balance ∧
    (process_transaction (process_transaction st sym "buy" q a).2 sym "sell" q a).2.portfolios
      = st.portfolios := by
  obtain ⟨hnd, hpos⟩ := hwf
  have hnlt : ¬ st.wallet_balance < a := not_lt.mpr hbal
  rcases hl : lookupHolding st.portfolios sym with _ | old
  · -- no holding row before the buy: the buy inserts it, the sell deletes it
    have hbuy : process_transaction st sym "buy" q a
        = (.success, ⟨st.wallet_balance - a, st.portfolios ++ [(sym, q)],
            st.transactions ++ [⟨sym, "buy", q, a⟩]⟩) := by
      simp [process_transaction, hnlt, hl]
    have hl2 : lookupHolding (st.portfolios ++ [(sym, q)]) sym = some q :=
      lookupHolding_append_of_none st.portfolios sym q hl
    have hdel : deleteHolding (st.portfolios ++ [(sym, q)]) sym = st.portfolios := by
      unfold deleteHolding
      rw [List.filter_append]
      have hps := deleteHolding_of_lookup_none st.portfolios sym hl
      unfold deleteHolding at hps
      rw [hps]
      simp
    rw [hbuy]
    have hsell : process_transaction
          (⟨st.wallet_balance - a, st.portfolios ++ [(sym, q)],
            st.transactions ++ [⟨sym, "buy", q, a⟩]⟩ : AccountState) sym "sell" q a
        = (.success, ⟨st.wallet_balance - a + a, st.portfolios,
            (st.transactions ++ [⟨sym, "buy", q, a⟩]) ++ [⟨sym, "sell", q, a⟩]⟩) := by
      simp [process_transaction, hl2, hdel]
    rw [hsell]
    refine ⟨rfl, rfl, by ring, rfl⟩
  · -- an existing holding row: the buy adds q to it, the sell removes q again
    have hold : 0 < old := lookupHolding_pos _ _ _ hpos hl
    have hbuy : process_transaction st sym "buy" q a
        = (.success, ⟨st.wallet_balance - a, setHolding st.portfolios sym (old + q),
            st.transactions ++ [⟨sym, "buy", q, a⟩]⟩) := by
      simp [process_transaction, hnlt, hl]
    have hl2 : lookupHolding (setHolding st.portfolios sym (old + q)) sym
        = some (old + q) := by
      rw [lookupHolding_setHolding_self, hl]
      rfl
    have hnlt2 : ¬ old + q < q := by linarith
    have harith : old + q - q = old := by ring
    have hset : setHolding (setHolding st.portfolios sym (old + q)) sym old
        = st.portfolios := by
      rw [setHolding_setHolding]
      exact setHolding_lookup_eq_self st.portfolios sym old hnd hl
    rw [hbuy]
    have hsell : process_transaction
          (⟨st.wallet_balance - a, setHolding st.portfolios sym (old + q),
            st.transactions ++ [⟨sym, "buy", q, a⟩]⟩ : AccountState) sym "sell" q a
        = (.success, ⟨st.wallet_balance - a + a, st.portfolios,
            (st.transactions ++ [⟨sym, "buy", q, a⟩]) ++ [⟨sym, "sell", q, a⟩]⟩) := by
      simp [process_transaction, hl2, hnlt2, harith, hold, hset]
    rw [hsell]
    refine ⟨rfl, rfl, by ring, rfl⟩

/-- Witness for C4 at a concrete account holding 5 AAPL shares. -/
theorem buy_sell_round_trip_witness :
    (process_transaction ⟨100, [("AAPL", 5)], []⟩ "AAPL" "buy" 3 60).1 = .success ∧
    (process_transaction
        (process_transaction ⟨100, [("AAPL", 5)], []⟩ "AAPL" "buy" 3 60).2
        "AAPL" "sell" 3 60).1 = .success ∧
    (process_transaction
        (process_transaction ⟨100, [("AAPL", 5)], []⟩ "AAPL" "buy" 3 60).2
        "AAPL" "sell" 3 60).2.wallet_balance = (100 : ℚ) ∧
    (process_transaction
        (process_transaction ⟨100, [("AAPL", 5)], []⟩ "AAPL" "buy" 3 60).2
        "AAPL" "sell" 3 60).2.portfolios = [("AAPL", 5)] :=
  buy_sell_round_trip ⟨100, [("AAPL", 5)], []⟩ "AAPL" 3 60
    (by constructor <;> simp) (by norm_num) (by norm_num) (by norm_num)

/-! Average cost basis (claim C5). -/

/-- After a sell settle the transaction rows are either untouched (the sell
was rejected) or extended by one sell row. -/
theorem sell_transactions_cases (st : AccountState) (sym : String) (q a : ℚ) :
    (process_transaction st sym "sell" q a).2.transactions = st.transactions ∨
    (process_transaction st sym "sell" q a).2.transactions
      = st.transactions ++ [⟨sym, "sell", q, a⟩] := by
  rcases hl : lookupHolding st.portfolios sym with _ | old
  · left
    simp [process_transaction, hl]
  · by_cases hlt : old < q
    · left
      simp [process_transaction, hl, hlt]
    · right
      simp [process_transaction, hl, hlt]

/-- A sell row never enters the buy-row selection. -/
theorem buyRows_append_sell (txs : List Txn) (sym sym2 : String) (q a : ℚ) :
    buyRows (txs ++ [⟨sym, "sell", q, a⟩]) sym2 = buyRows txs sym2 := by
  unfold buyRows
  rw [List.filter_append]
  simp

/-- C5: the reported average cost per share times the total bought quantity
recovers the total buy spend (so the average is total buy amounts over total
buy quantities, computed from buy rows only); a sell settle — successful or
rejected — therefore never changes any symbol's average cost.  In the spec's
example, buying 10 shares for 100 then 10 for 200 gives average cost 15, and
selling 5 shares leaves it at 15. -/
theorem avg_cost_from_buys_and_sell_invariant :
    (∀ txs sym, 0 < ((buyRows txs sym).map Txn.quantity).sum →
      avg_cost_per_share txs sym * ((buyRows txs sym).map Txn.quantity).sum
        = ((buyRows txs sym).map Txn.price).sum) ∧
    (∀ st : AccountState, ∀ sym q a sym2,
      avg_cost_per_share ((process_transaction st sym "sell" q a).2).transactions sym2
        = avg_cost_per_share st.transactions sym2) ∧
    avg_cost_per_share (runTransactions ⟨1000, [], []⟩
        [⟨"X", "buy", 10, 100⟩, ⟨"X", "buy", 10, 200⟩]).transactions "X" = 15 ∧
    avg_cost_per_share (runTransactions ⟨1000, [], []⟩
        [⟨"X", "buy", 10, 100⟩, ⟨"X", "buy", 10, 200⟩,
         ⟨"X", "sell", 5, 75⟩]).transactions "X" = 15 := by
  refine ⟨?_, ?_, ?_, ?_⟩
  · intro txs sym h
    simp only [avg_cost_per_share]
    rw [if_pos h]
    exact div_mul_cancel₀ _ (ne_of_gt h)
  · intro st sym q a sym2
    rcases sell_transactions_cases st sym q a with h | h
    · rw [h]
    · rw [h]
      simp only [avg_cost_per_share, buyRows_append_sell]
  · norm_num +decide [runTransactions, process_transaction, avg_cost_per_share, buyRows,
      lookupHolding, setHolding, List.find?, List.filter]
  · have hsb : (("sell" : String) == "buy") = false := by decide
    norm_num +decide [runTransactions, process_transaction, avg_cost_per_share, buyRows,
      lookupHolding, setHolding, List.find?, List.filter, hsb]

/-- Witness for C5's hypothesised conjunct at a concrete one-buy ledger. -/
theorem avg_cost_from_buys_witness :
    avg_cost_per_share [⟨"X", "buy", 10, 100⟩] "X"
        * ((buyRows [⟨"X", "buy", 10, 100⟩] "X").map Txn.quantity).sum
      = ((buyRows [⟨"X", "buy", 10, 100⟩] "X").map Txn.price).sum :=
  avg_cost_from_buys_and_sell_invariant.1 [⟨"X", "buy", 10, 100⟩] "X"
    (by norm_num +decide [buyRows, List.filter])

/-! The quote cache (claim C7). -/

theorem cacheFind_insert_self {V : Type} (c : List (String × ℚ × V)) (k : String)
    (ts : ℚ) (v : V) : cacheFind (cacheInsert c k ts v) k = some (ts, v) := by
  have hfind : List.find? (fun e => e.1 == k) (((k, ts, v) : String × ℚ × V)
      :: (c.filter (fun e => !(e.1 == k)))) = some (k, ts, v) :=
    List.find?_cons_of_pos _ (by simp)
  simp [cacheFind, cacheInsert, hfind]

/-- C7: a lookup whose entry is younger than the TTL returns the cached value
with no fetch; a lookup with no entry, or whose entry has reached the TTL,
performs the fetch and stores the result under the key timestamped now.  In
consequence, starting from an empty slot, two lookups within one TTL window
perform exactly one fetch (the second returns the first's data), and a second
lookup at or past the TTL boundary performs a new fetch. -/
theorem cache_hit_miss_single_fetch {V : Type} :
    (∀ (c : List (String × ℚ × V)) (k : String) (now ts : ℚ) (v : V) (d : V),
      cacheFind c k = some (ts, v) → now - ts < CACHE_TTL →
      finnhub_get c k now d = (v, c, false)) ∧
    (∀ (c : List (String × ℚ × V)) (k : String) (now : ℚ) (d : V),
      cacheFind c k = none →
      finnhub_get c k now d = (d, cacheInsert c k now d, true)) ∧
    (∀ (c : List (String × ℚ × V)) (k : String) (now ts : ℚ) (v : V) (d : V),
      cacheFind c k = some (ts, v) → ¬ (now - ts < CACHE_TTL) →
      finnhub_get c k now d = (d, cacheInsert c k now d, true)) ∧
    (∀ (c : List (String × ℚ × V)) (k : String) (t0 t1 : ℚ) (d0 d1 : V),
      cacheFind c k = none → t0 ≤ t1 → t1 - t0 < CACHE_TTL →
      (finnhub_get c k t0 d0).2.2 = true ∧
      finnhub_get (finnhub_get c k t0 d0).2.1 k t1 d1
        = (d0, (finnhub_get c k t0 d0).2.1, false)) ∧
    (∀ (c : List (String × ℚ × V)) (k : String) (t0 t1 : ℚ) (d0 d1 : V),
      cacheFind c k = none → CACHE_TTL ≤ t1 - t0 →
      (finnhub_get (finnhub_get c k t0 d0).2.1 k t1 d1).2.2 = true) := by
  refine ⟨?_, ?_, ?_, ?_, ?_⟩
  · intro c k now ts v d h hlt
    simp [finnhub_get, h, hlt]
  · intro c k now d h
    simp [finnhub_get, h]
  · intro c k now ts v d h hlt
    simp [finnhub_get, h, hlt]
  · intro c k t0 t1 d0 d1 h hle hlt
    have h1 : finnhub_get c k t0 d0 = (d0, cacheInsert c k t0 d0, true) := by
      simp [finnhub_get, h]
    have h2 := cacheFind_insert_self c k t0 d0
    refine ⟨by rw [h1], ?_⟩
    rw [h1]
    simp [finnhub_get, h2, hlt]
  · intro c k t0 t1 d0 d1 h hge
    have h1 : finnhub_get c k t0 d0 = (d0, cacheInsert c k t0 d0, true) := by
      simp [finnhub_get, h]
    have h2 := cacheFind_insert_self c k t0 d0
    have h3 : ¬ (t1 - t0 < CACHE_TTL) := not_lt.mpr hge
    rw [h1]
    simp [finnhub_get, h2, h3]

/-- Witness for C7: from an empty cache, a first lookup at time 0 fetches,
and a second lookup of the same key at time 100 returns the cached value
without fetching. -/
theorem cache_hit_miss_single_fetch_witness :
    (finnhub_get ([] : List (String × ℚ × ℚ)) "quote:AAPL" 0 42).2.2 = true ∧
    finnhub_get (finnhub_get ([] : List (String × ℚ × ℚ)) "quote:AAPL" 0 42).2.1
        "quote:AAPL" 100 43
      = (42, (finnhub_get ([] : List (String × ℚ × ℚ)) "quote:AAPL" 0 42).2.1, false) :=
  (cache_hit_miss_single_fetch (V := ℚ)).2.2.2.1 [] "quote:AAPL" 0 100 42 43
    rfl (by norm_num) (by norm_num [CACHE_TTL])

/-! The parallel fetch coordinator (claim C8). -/

/-- C8: a per-symbol task whose quote is incomplete (falsy current price, or
falsy/zero previous close) yields no record, and a batch [A, B] in which A's
task produces a record while B's provider call raises returns exactly A's
record — the failure is dropped, no error reaches the caller. -/
theorem batch_fetch_drops_failures :
    (∀ (q : FinnhubQuote) (p : FinnhubProfile) (sym : String) (wl : List String),
      q.c.getD 0 = 0 ∨ q.pc.getD 0 = 0 →
      fetch_one_stock (some q) (some p) sym wl = none) ∧
    (∀ (quoteOf : String → Option FinnhubQuote)
        (profileOf : String → Option FinnhubProfile)
        (A B : String) (wl : List String) (rec : StockRecord),
      fetch_one_stock (quoteOf A) (profileOf A) A wl = some rec →
      quoteOf B = none →
      fetch_stock_data quoteOf profileOf [A, B] wl = [rec]) := by
  constructor
  · intro q p sym wl h
    simp only [fetch_one_stock]
    rw [if_pos h]
  · intro quoteOf profileOf A B wl rec hA hB
    have hBnone : fetch_one_stock (quoteOf B) (profileOf B) B wl = none := by
      rw [hB]
      rcases profileOf B with _ | p <;> rfl
    simp [fetch_stock_data, hA, hBnone]

/-- Witness for C8: AAPL's task succeeds, MSFT's provider call raises, and
the batch returns exactly the AAPL record. -/
theorem batch_fetch_drops_failures_witness :
    fetch_stock_data
        (fun s => if s == "AAPL" then some ⟨some 10, some 8⟩ else none)
        (fun _ => some ⟨some "Apple Inc", some "Technology", some 5000000000, none⟩)
        ["AAPL", "MSFT"] []
      = [⟨"AAPL", "Apple Inc", 8, 10, 2, 25, "Technology", "Mid cap", false⟩] := by
  refine batch_fetch_drops_failures.2
    (fun s => if s == "AAPL" then some ⟨some 10, some 8⟩ else none)
    (fun _ => some ⟨some "Apple Inc", some "Technology", some 5000000000, none⟩)
    "AAPL" "MSFT" [] ⟨"AAPL", "Apple Inc", 8, 10, 2, 25, "Technology", "Mid cap", false⟩
    ?_ (by decide)
  norm_num [fetch_one_stock, round2, market_cap_bucket, round_eq]
  decide

/-! Chart series processing (claim C9). -/

theorem getElem?_filterMap_id_of_no_none (l : List (Option ℚ))
    (hl : ∀ c ∈ l, c ≠ none) :
    ∀ i : ℕ, l[i]? = ((l.filterMap id)[i]?).map some := by
  induction l with
  | nil =>
    intro i
    simp
  | cons c l ih =>
    rcases c with _ | x
    · exact absurd rfl (hl none (List.mem_cons_self _ _))
    · have hrec := ih (fun c hc => hl c (List.mem_cons_of_mem _ hc))
      intro i
      cases i with
      | zero => simp
      | succ n =>
        simp only [List.getElem?_cons_succ, List.filterMap_cons]
        simpa using hrec n

/-- C9 (amended): when the provider supplies one timestamp per raw close
entry, the returned dates and prices have the same length, prices are the
non-null closes, and for every returned index the volume is the raw row's
volume zero-filled and the date is the raw row's formatted timestamp — so
dates (and volumes) stay aligned with raw row indices while prices are
compacted, and the date-price alignment claimed by the spec holds only under
the extra assumption that no close is null. -/
theorem yahoo_chart_shape (fmt : ℤ → String) (chart : ChartResult)
    (hlen : chart.timestamp.length = chart.quote.close.length) :
    (yahoo_chart fmt chart).dates.length = (yahoo_chart fmt chart).prices.length ∧
    (yahoo_chart fmt chart).prices = chart.quote.close.filterMap id ∧
    (∀ i : ℕ, i < (yahoo_chart fmt chart).prices.length →
      (yahoo_chart fmt chart).volumes[i]?
        = (chart.quote.volume[i]?).map (fun v => v.getD 0)) ∧
    (∀ i : ℕ, i < (yahoo_chart fmt chart).prices.length →
      (yahoo_chart fmt chart).dates[i]? = (chart.timestamp[i]?).map fmt) ∧
    ((∀ c ∈ chart.quote.close, c ≠ none) → datePriceAligned fmt chart) := by
  refine ⟨?_, rfl, ?_, ?_, ?_⟩
  · have hk : (chart.quote.close.filterMap id).length ≤ chart.timestamp.length := by
      rw [hlen]
      exact List.length_filterMap_le _ _
    simp [yahoo_chart, min_eq_left hk]
  · intro i hi
    simp only [yahoo_chart] at hi ⊢
    rw [List.getElem?_take, if_pos hi, List.getElem?_map]
  · intro i hi
    simp only [yahoo_chart] at hi ⊢
    rw [List.getElem?_map, List.getElem?_take, if_pos hi]
  · intro hnone
    intro i _
    show chart.quote.close[i]? = (((chart.quote.close.filterMap id))[i]?).map some
    exact getElem?_filterMap_id_of_no_none chart.quote.close hnone i

/-- Witness for C9's amended theorem at a concrete two-row chart response. -/
theorem yahoo_chart_shape_witness :
    (yahoo_chart (fun t => toString t)
        ⟨[0, 86400], ⟨[some 3, some 5], [none, some 2]⟩⟩).dates.length
      = (yahoo_chart (fun t => toString t)
        ⟨[0, 86400], ⟨[some 3, some 5], [none, some 2]⟩⟩).prices.length :=
  (yahoo_chart_shape (fun t => toString t)
    ⟨[0, 86400], ⟨[some 3, some 5], [none, some 2]⟩⟩ (by norm_num)).1

/-- C9 counterexample: with a null close in raw row 0, the first returned
price is the close of raw row 1 while the first returned date is raw row 0's
timestamp — the claimed date-price index alignment is false. -/
theorem yahoo_chart_alignment_counterexample :
    ¬ datePriceAligned (fun t => toString t)
        ⟨[0, 86400], ⟨[none, some 5], [some 1, some 2]⟩⟩ := by
  intro h
  have h0 := h 0 (by simp [yahoo_chart, List.filterMap_cons])
  simp [yahoo_chart] at h0

/-! The well-formedness hypothesis of the round-trip theorem is the invariant
of every reachable account: fresh accounts satisfy it and settlement
preserves it. -/

theorem setHolding_keys (ps : List (String × ℚ)) (sym : String) (q : ℚ) :
    (setHolding ps sym q).map Prod.fst = ps.map Prod.fst := by
  unfold setHolding
  rw [List.map_map]
  apply List.map_congr_left
  intro p _
  by_cases h : p.1 = sym
  · simp [Function.comp, h]
  · simp [Function.comp, h]

theorem not_mem_keys_of_lookup_none (ps : List (String × ℚ)) (sym : String)
    (h : lookupHolding ps sym = none) : sym ∉ ps.map Prod.fst := by
  rw [lookupHolding_eq_none_iff] at h
  intro hmem
  obtain ⟨p, hp, hkey⟩ := List.mem_map.mp hmem
  have := h p hp
  rw [hkey] at this
  simp at this

theorem process_transaction_holdings_nodup (st : AccountState) (sym tt : String) (q a : ℚ)
    (hnd : (st.portfolios.map Prod.fst).Nodup) :
    (((process_transaction st sym tt q a).2.portfolios).map Prod.fst).Nodup := by
  by_cases hb : tt = "buy"
  · subst hb
    by_cases hlt : st.wallet_balance < a
    · simpa [process_transaction, hlt] using hnd
    · rcases hl : lookupHolding st.portfolios sym with _ | old
      · have hports : (process_transaction st sym "buy" q a).2.portfolios
            = st.portfolios ++ [(sym, q)] := by
          simp [process_transaction, hlt, hl]
        rw [hports, List.map_append, List.nodup_append]
        refine ⟨hnd, by simp, ?_⟩
        intro x hx
        simp only [List.map_cons, List.map_nil, List.mem_singleton]
        intro hxs
        exact not_mem_keys_of_lookup_none st.portfolios sym hl (by simpa [hxs] using hx)
      · have hports : (process_transaction st sym "buy" q a).2.portfolios
            = setHolding st.portfolios sym (old + q) := by
          simp [process_transaction, hlt, hl]
        rw [hports, setHolding_keys]
        exact hnd
  · by_cases hs : tt = "sell"
    · subst hs
      rcases hl : lookupHolding st.portfolios sym with _ | old
      · simpa [process_transaction, hl] using hnd
      · by_cases hlt : old < q
        · simpa [process_transaction, hl, hlt] using hnd
        · by_cases hpos : old - q > 0
          · have hports : (process_transaction st sym "sell" q a).2.portfolios
                = setHolding st.portfolios sym (old - q) := by
              simp [process_transaction, hl, hlt, hpos]
            rw [hports, setHolding_keys]
            exact hnd
          · have hports : (process_transaction st sym "sell" q a).2.portfolios
                = deleteHolding st.portfolios sym := by
              simp [process_transaction, hl, hlt, hpos]
            rw [hports]
            exact hnd.sublist ((List.filter_sublist _).map Prod.fst)
    · simpa [process_transaction, hb, hs] using hnd

theorem runTransactions_holdingsWF (st : AccountState) (reqs : List TradeRequest)
    (hwf : HoldingsWF st.portfolios)
    (hreqs : ∀ r ∈ reqs, 0 < r.quantity) :
    HoldingsWF (runTransactions st reqs).portfolios := by
  induction reqs generalizing st with
  | nil => simpa [runTransactions] using hwf
  | cons r rs ih =>
    have hrun : runTransactions st (r :: rs)
        = runTransactions
            (process_transaction st r.symbol r.transaction_type r.quantity r.amount).2 rs := rfl
    rw [hrun]
    refine ih _ ⟨?_, ?_⟩ (fun x hx => hreqs x (List.mem_cons_of_mem r hx))
    · exact process_transaction_holdings_nodup st r.symbol r.transaction_type
        r.quantity r.amount hwf.1
    · exact process_transaction_holdings_pos st r.symbol r.transaction_type
        r.quantity r.amount (hreqs r (List.mem_cons_self r rs)) hwf.2
